import Mathlib

/-!
Shallow embedding of `scripts/version_manager.py` (auto-versioning repository).

Strings are modelled as `List Char`. The version file is `Option (List Char)`
(`none` = the file does not exist, `some content` = its text). The two regular
expressions of the script,

  read  : __version__\s*=\s*["'](\d+\.\d+\.\d+)["']
  write : __version__\s*=\s*["'][^"']+["']

are embedded as deterministic matchers. For these patterns the greedy
interpretation is exact: each repeated class (`\s*`, `\d+`, `[^"']+`) is
followed by a literal that no member of the class can match, so the backtracking
of Python's engine never changes the outcome, and `re.search` / `re.sub` reduce
to a left-to-right scan trying an anchored match at every position.
-/

namespace VersionManager

/-- ASCII decimal digit, the `\d` class on the inputs arising here. -/
def isPyDigit (c : Char) : Bool := decide ('0' ≤ c) && decide (c ≤ '9')

/-- Quote characters, the `["']` class. The single quote is `Char.ofNat 39`. -/
def isQuote (c : Char) : Bool := c == '"' || c == Char.ofNat 39

/-- ASCII whitespace, the `\s` class: space, tab, newline, carriage return,
vertical tab, form feed. -/
def isPySpace (c : Char) : Bool :=
  c == ' ' || c == Char.ofNat 9 || c == Char.ofNat 10 || c == Char.ofNat 13 ||
    c == Char.ofNat 11 || c == Char.ofNat 12

/-- ASCII lowering of one character, as `str.lower` acts on the ASCII range
(the commit messages inspected by the script are compared against ASCII
markers, so only this range matters). -/
def charLower (c : Char) : Char :=
  if decide ('A' ≤ c) && decide (c ≤ 'Z') then Char.ofNat (c.toNat + 32) else c

/-- Model of `str.lower` on the message text. -/
def pyLower (l : List Char) : List Char := l.map charLower

/-- Does `pat` occur at the very start of the list? -/
def leadsWith : List Char → List Char → Bool
  | [], _ => true
  | _ :: _, [] => false
  | p :: ps, c :: cs => p == c && leadsWith ps cs

/-- Model of the Python substring test `pat in l`. -/
def containsSub (pat : List Char) : List Char → Bool
  | [] => leadsWith pat []
  | c :: cs => leadsWith pat (c :: cs) || containsSub pat cs

/-- Consume an exact literal from the front, returning the remainder. -/
def dropLit : List Char → List Char → Option (List Char)
  | [], l => some l
  | _ :: _, [] => none
  | p :: ps, c :: cs => if p == c then dropLit ps cs else none

/-- The literal `__version__` that both regular expressions open with. -/
def VLIT : List Char := ['_', '_', 'v', 'e', 'r', 's', 'i', 'o', 'n', '_', '_']

/-- Shared front of both patterns: `__version__\s*=\s*["']`. Returns the
remainder after the opening quote. -/
def matchHeader (l : List Char) : Option (List Char) :=
  match dropLit VLIT l with
  | none => none
  | some r1 =>
    match r1.dropWhile isPySpace with
    | [] => none
    | e :: r3 =>
      if e == '=' then
        match r3.dropWhile isPySpace with
        | [] => none
        | q :: r5 => if isQuote q then some r5 else none
      else none

/-- Anchored match of the substitution pattern `__version__\s*=\s*["'][^"']+["']`
at the head of `l`; returns the remainder after the match. The head of the
`dropWhile` result necessarily fails `!isQuote`, i.e. it is the closing quote. -/
def matchWriteAt (l : List Char) : Option (List Char) :=
  match matchHeader l with
  | none => none
  | some r =>
    if (r.takeWhile (fun c => !isQuote c)).isEmpty then none
    else
      match r.dropWhile (fun c => !isQuote c) with
      | [] => none
      | _ :: rest => some rest

/-- Anchored match of the search pattern `__version__\s*=\s*["'](\d+\.\d+\.\d+)["']`
at the head of `l`; returns the capture group and the remainder. -/
def matchReadAt (l : List Char) : Option (List Char × List Char) :=
  match matchHeader l with
  | none => none
  | some r =>
    match r.dropWhile isPyDigit with
    | [] => none
    | c1 :: r2 =>
      if (r.takeWhile isPyDigit).isEmpty then none
      else if c1 == '.' then
        match r2.dropWhile isPyDigit with
        | [] => none
        | c2 :: r3 =>
          if (r2.takeWhile isPyDigit).isEmpty then none
          else if c2 == '.' then
            match r3.dropWhile isPyDigit with
            | [] => none
            | c3 :: r4 =>
              if (r3.takeWhile isPyDigit).isEmpty then none
              else if isQuote c3 then
                some (r.takeWhile isPyDigit ++ '.' :: r2.takeWhile isPyDigit ++
                  '.' :: r3.takeWhile isPyDigit, r4)
              else none
          else none
      else none

/-- Model of `re.search` with the read pattern: first anchored match, scanning
start positions left to right; yields the capture group. -/
def searchRead : List Char → Option (List Char)
  | [] => none
  | c :: cs =>
    match matchReadAt (c :: cs) with
    | some m => some m.1
    | none => searchRead cs

/-- Replacement text used by `update_version_file`: `__version__ = "<v>"`. -/
def repl (v : List Char) : List Char := VLIT ++ ' ' :: '=' :: ' ' :: '"' :: v ++ ['"']

/-- Content written for a fresh file (or when the substitution was a no-op):
one assignment line ending in a newline. -/
def canonLine (v : List Char) : List Char := repl v ++ [Char.ofNat 10]

/-- Fuelled model of `re.sub` with the write pattern (fuel makes the recursion
structural; with fuel at least the length of the list the fuel never runs out,
since every match consumes at least one character). -/
def subAllF (v : List Char) : Nat → List Char → List Char
  | _, [] => []
  | 0, l => l
  | fuel + 1, c :: cs =>
    match matchWriteAt (c :: cs) with
    | some rest => repl v ++ subAllF v fuel rest
    | none => c :: subAllF v fuel cs

/-- Model of `re.sub(write_pattern, repl v, l)`: replace every leftmost
non-overlapping match, keep all other characters. -/
def subAll (v l : List Char) : List Char := subAllF v l.length l

/-- Default version text `"0.0.0"`. -/
def defaultVersion : List Char := ['0', '.', '0', '.', '0']

/-- Model of `read_current_version`: missing file or no regex match give the
default; a match gives the capture group. The source additionally prints a
warning in the no-match case and catches I/O errors (also defaulting); neither
raises. -/
def read_current_version (file : Option (List Char)) : List Char :=
  match file with
  | none => defaultVersion
  | some content =>
    match searchRead content with
    | some cap => cap
    | none => defaultVersion

/-- Python `s.split('.')`. -/
def splitDot : List Char → List (List Char)
  | [] => [[]]
  | c :: cs =>
    if c == '.' then [] :: splitDot cs
    else
      match splitDot cs with
      | [] => [[c]]
      | t :: ts => (c :: t) :: ts

/-- Numeric value of a digit string (most significant first). -/
def digitsVal (l : List Char) : Nat := l.foldl (fun a c => a * 10 + (c.toNat - 48)) 0

/-- Model of Python `int(s)` on the strings reachable in this program: a
nonempty string of ASCII digits parses to its value, anything else raises
(returns `none`). Python's `int` additionally strips whitespace and accepts a
sign and underscores; no such string ever reaches `int` here, because the
arguments come from `read_current_version`, whose results match `\d+\.\d+\.\d+`. -/
def pyInt (l : List Char) : Option Nat :=
  if !l.isEmpty && l.all isPyDigit then some (digitsVal l) else none

/-- Fuelled decimal printer (most significant digit first, no leading zeros,
`"0"` for zero); fuel `n + 1` always suffices for value `n`. -/
def numToCharsF : Nat → Nat → List Char → List Char
  | _, 0, acc => acc
  | n, fuel + 1, acc =>
    if n < 10 then Char.ofNat (48 + n) :: acc
    else numToCharsF (n / 10) fuel (Char.ofNat (48 + n % 10) :: acc)

/-- Decimal representation of a natural number. -/
def numToChars (n : Nat) : List Char := numToCharsF n (n + 1) []

/-- The f-string `f"{major}.{minor}.{patch}"`. -/
def fmtV (a b c : Nat) : List Char := numToChars a ++ '.' :: numToChars b ++ '.' :: numToChars c

/-- Increment class argument strings. -/
def majorT : List Char := ['m', 'a', 'j', 'o', 'r']

/-- Increment class argument string for minor. -/
def minorT : List Char := ['m', 'i', 'n', 'o', 'r']

/-- Increment class argument string for patch. -/
def patchT : List Char := ['p', 'a', 't', 'c', 'h']

/-- Kinds of ValueError that `increment_version` can raise. -/
inductive PyErr where
  | invalidFormat : PyErr
  | intParse : PyErr
  | invalidType : PyErr
  deriving DecidableEq

deriving instance DecidableEq for Except

/-- Model of `increment_version`: split on dots, demand exactly three parts,
convert each with `int`, then dispatch on the class string; unknown class
raises. `Except.error` models a raised ValueError. -/
def increment_version (currentVersion incType : List Char) : Except PyErr (List Char) :=
  match splitDot currentVersion with
  | [p1, p2, p3] =>
    match pyInt p1, pyInt p2, pyInt p3 with
    | some a, some b, some c =>
      if incType = majorT then Except.ok (fmtV (a + 1) 0 0)
      else if incType = minorT then Except.ok (fmtV a (b + 1) 0)
      else if incType = patchT then Except.ok (fmtV a b (c + 1))
      else Except.error PyErr.invalidType
    | _, _, _ => Except.error PyErr.intParse
  | _ => Except.error PyErr.invalidFormat

/-- Marker `[major]`. -/
def mMajor : List Char := ['[', 'm', 'a', 'j', 'o', 'r', ']']

/-- Marker `[minor]`. -/
def mMinor : List Char := ['[', 'm', 'i', 'n', 'o', 'r', ']']

/-- Marker `[patch]`. -/
def mPatch : List Char := ['[', 'p', 'a', 't', 'c', 'h', ']']

/-- Loop-guard phrase `auto-increment version`. -/
def phraseAutoInc : List Char :=
  ['a', 'u', 't', 'o', '-', 'i', 'n', 'c', 'r', 'e', 'm', 'e', 'n', 't', ' ',
   'v', 'e', 'r', 's', 'i', 'o', 'n']

/-- Loop-guard phrase `chore: auto-increment`. -/
def phraseChore : List Char :=
  ['c', 'h', 'o', 'r', 'e', ':', ' ', 'a', 'u', 't', 'o', '-', 'i', 'n', 'c',
   'r', 'e', 'm', 'e', 'n', 't']

/-- Model of `parse_commit_message_for_increment`: lowercase the message, then
test the three markers in priority order, defaulting to patch. The source also
contains a dead `if ... : pass` on the skip phrases, which has no effect. -/
def parse_commit_message_for_increment (commitMessage : List Char) : List Char :=
  let m := pyLower commitMessage
  if containsSub mMajor m then majorT
  else if containsSub mMinor m then minorT
  else if containsSub mPatch m then patchT
  else patchT

/-- Model of `should_skip_version_update`: a loop-guard phrase is present and
no marker is present. -/
def should_skip_version_update (commitMessage : List Char) : Bool :=
  let m := pyLower commitMessage
  (containsSub phraseAutoInc m || containsSub phraseChore m) &&
    !(containsSub mMajor m || containsSub mMinor m || containsSub mPatch m)

/-- Model of `update_version_file` (the value written; the directory creation
and the I/O error path, which returns False, are not part of the content
computation): substitute every write-pattern match; if the substitution changed
nothing (in particular when there is no match), the whole content is replaced
by a single canonical line; a missing file is created with that line. -/
def update_version_file (file : Option (List Char)) (newVersion : List Char) : List Char :=
  match file with
  | some content =>
    let newContent := subAll newVersion content
    if newContent = content then canonLine newVersion else newContent
  | none => canonLine newVersion

/-- Observable version-file states during the write phase of
`update_version_file`: `open(path, 'w')` first truncates the file, then the
new content is written in place. There is no temporary file or rename. -/
def update_write_states (file : Option (List Char)) (newVersion : List Char) :
    List (Option (List Char)) :=
  [some [], some (update_version_file file newVersion)]

/-- Model of `main`: read, maybe skip (exit 0), classify, increment, write,
exit 0 when the version string changed and 1 otherwise; a failed write exits 1.
`writeOk` models absence of I/O failure in `update_version_file`; a `none`
result models an uncaught Python exception escaping `main`. Returns the exit
code and the final file state. -/
def main (file : Option (List Char)) (commitMessage : List Char) (writeOk : Bool) :
    Option (Nat × Option (List Char)) :=
  let currentVersion := read_current_version file
  if should_skip_version_update commitMessage then some (0, file)
  else
    match increment_version currentVersion (parse_commit_message_for_increment commitMessage) with
    | Except.error _ => none
    | Except.ok newVersion =>
      if writeOk then
        some ((if currentVersion = newVersion then 1 else 0),
          some (update_version_file file newVersion))
      else some (1, file)

/-- Relational specification of the substitution: the output is the input with
every leftmost non-overlapping write-pattern match replaced by `repl v` and
every other character kept verbatim. -/
inductive SubSpec (v : List Char) : List Char → List Char → Prop
  | nil : SubSpec v [] []
  | keep (c : Char) (l o : List Char) : matchWriteAt (c :: l) = none →
      SubSpec v l o → SubSpec v (c :: l) (c :: o)
  | subst (m rest o : List Char) : matchWriteAt (m ++ rest) = some rest → m ≠ [] →
      SubSpec v rest o → SubSpec v (m ++ rest) (repl v ++ o)

/-- Lexicographic strict order on version triples. -/
def vlt (x y : Nat × Nat × Nat) : Prop :=
  x.1 < y.1 ∨ (x.1 = y.1 ∧ (x.2.1 < y.2.1 ∨ (x.2.1 = y.2.1 ∧ x.2.2 < y.2.2)))

end VersionManager

namespace VersionManager

/-- A pattern leads a list exactly when the list extends it. -/
theorem leadsWith_iff (pat l : List Char) : leadsWith pat l = true ↔ ∃ y, l = pat ++ y := by
  induction pat generalizing l with
  | nil => simp [leadsWith]
  | cons p ps ih =>
    cases l with
    | nil => simp [leadsWith]
    | cons c cs =>
      simp only [leadsWith, Bool.and_eq_true, beq_iff_eq, ih, List.cons_append]
      constructor
      · rintro ⟨rfl, y, rfl⟩
        exact ⟨y, rfl⟩
      · rintro ⟨y, h⟩
        injection h with h1 h2
        exact ⟨h1.symm, y, h2⟩

/-- The Python substring test agrees with the infix decomposition. -/
theorem containsSub_iff (pat l : List Char) :
    containsSub pat l = true ↔ ∃ x y, l = x ++ pat ++ y := by
  induction l with
  | nil =>
    simp only [containsSub, leadsWith_iff]
    constructor
    · rintro ⟨y, h⟩
      rcases List.append_eq_nil.mp h.symm with ⟨rfl, rfl⟩
      exact ⟨[], [], rfl⟩
    · rintro ⟨x, y, h⟩
      rcases List.append_eq_nil.mp h.symm with ⟨h1, rfl⟩
      rcases List.append_eq_nil.mp h1 with ⟨rfl, rfl⟩
      exact ⟨[], rfl⟩
  | cons c cs ih =>
    simp only [containsSub, Bool.or_eq_true, leadsWith_iff, ih]
    constructor
    · rintro (⟨y, h⟩ | ⟨x, y, h⟩)
      · exact ⟨[], y, by simpa using h⟩
      · exact ⟨c :: x, y, by simp [h]⟩
    · rintro ⟨x, y, h⟩
      cases x with
      | nil => exact Or.inl ⟨y, by simpa using h⟩
      | cons a as =>
        injection h with h1 h2
        exact Or.inr ⟨as, y, h2⟩

/-- Claim C5: classification is a case-insensitive, position-independent
substring search with fixed priority major before minor before patch, with
patch as the default when no marker occurs. -/
theorem claim5_classification (msg : List Char) :
    ((∃ x y, pyLower msg = x ++ mMajor ++ y) →
        parse_commit_message_for_increment msg = majorT) ∧
    ((¬ ∃ x y, pyLower msg = x ++ mMajor ++ y) → (∃ x y, pyLower msg = x ++ mMinor ++ y) →
        parse_commit_message_for_increment msg = minorT) ∧
    ((¬ ∃ x y, pyLower msg = x ++ mMajor ++ y) → (¬ ∃ x y, pyLower msg = x ++ mMinor ++ y) →
     (¬ ∃ x y, pyLower msg = x ++ mPatch ++ y) →
        parse_commit_message_for_increment msg = patchT) := by
  refine ⟨fun h1 => ?_, fun h1 h2 => ?_, fun h1 h2 h3 => ?_⟩
  · simp [parse_commit_message_for_increment, (containsSub_iff _ _).mpr h1]
  · rw [← containsSub_iff] at h2
    simp only [← containsSub_iff, Bool.not_eq_true] at h1
    simp [parse_commit_message_for_increment, h1, h2]
  · simp only [← containsSub_iff, Bool.not_eq_true] at h1 h2 h3
    simp [parse_commit_message_for_increment, h1, h2, h3]

/-- Absence of a substring refutes the infix decomposition. -/
theorem containsSub_false_iff (pat l : List Char) :
    containsSub pat l = false ↔ ¬ ∃ x y, l = x ++ pat ++ y := by
  rw [← containsSub_iff]
  cases h : containsSub pat l <;> simp

/-- Absence of a substring refutes the infix decomposition, implication form. -/
theorem not_containsSub (pat l : List Char) (h : containsSub pat l = false) :
    ¬ ∃ x y, l = x ++ pat ++ y :=
  (containsSub_false_iff pat l).mp h

/-- Witness for claim C5 at concrete messages exercising each branch. -/
theorem claim5_witness :
    parse_commit_message_for_increment
        (('z' :: ' ' :: mMajor) ++ ' ' :: mPatch) = majorT ∧
    parse_commit_message_for_increment (' ' :: mMinor ++ ' ' :: mPatch) = minorT ∧
    parse_commit_message_for_increment ['h', 'i'] = patchT :=
  ⟨(claim5_classification _).1 ((containsSub_iff _ _).mp (by decide)),
    (claim5_classification _).2.1 (not_containsSub _ _ (by decide))
      ((containsSub_iff _ _).mp (by decide)),
    (claim5_classification _).2.2 (not_containsSub _ _ (by decide))
      (not_containsSub _ _ (by decide)) (not_containsSub _ _ (by decide))⟩

/-- Claim C6: the skip test holds exactly when a loop-guard phrase occurs in
the lower-cased message and none of the three bracket markers occurs; an
explicit marker therefore overrides the guard. -/
theorem claim6_should_skip (msg : List Char) :
    should_skip_version_update msg = true ↔
      ((∃ x y, pyLower msg = x ++ phraseAutoInc ++ y) ∨
        (∃ x y, pyLower msg = x ++ phraseChore ++ y)) ∧
      (¬ ∃ x y, pyLower msg = x ++ mMajor ++ y) ∧
      (¬ ∃ x y, pyLower msg = x ++ mMinor ++ y) ∧
      (¬ ∃ x y, pyLower msg = x ++ mPatch ++ y) := by
  rw [← containsSub_iff, ← containsSub_iff, ← containsSub_false_iff,
    ← containsSub_false_iff, ← containsSub_false_iff]
  simp [should_skip_version_update, and_assoc]

/-- Unfolding of the fuelled printer at positive fuel. -/
theorem numToCharsF_succ (n f : Nat) (acc : List Char) :
    numToCharsF n (f + 1) acc =
      if n < 10 then Char.ofNat (48 + n) :: acc
      else numToCharsF (n / 10) f (Char.ofNat (48 + n % 10) :: acc) := rfl

/-- Fuel above the value is enough, and the accumulator splits off. -/
theorem numToCharsF_acc :
    ∀ (n f : Nat) (acc : List Char), n < f →
      numToCharsF n f acc = numToCharsF n (n + 1) [] ++ acc := by
  intro n
  induction n using Nat.strong_induction_on with
  | _ n ih =>
    intro f acc hf
    obtain ⟨g, rfl⟩ : ∃ g, f = g + 1 := ⟨f - 1, by omega⟩
    rw [numToCharsF_succ, numToCharsF_succ]
    by_cases h10 : n < 10
    · simp [h10]
    · have hdiv : n / 10 < n := Nat.div_lt_self (by omega) (by omega)
      simp only [h10, if_false]
      rw [ih (n / 10) hdiv g _ (by omega), ih (n / 10) hdiv n _ (by omega),
        List.append_assoc, List.singleton_append]

/-- Recursion equation for the decimal printer. -/
theorem numToChars_eq (n : Nat) :
    numToChars n =
      if n < 10 then [Char.ofNat (48 + n)]
      else numToChars (n / 10) ++ [Char.ofNat (48 + n % 10)] := by
  unfold numToChars
  rw [numToCharsF_succ]
  by_cases h10 : n < 10
  · simp [h10]
  · have hdiv : n / 10 < n := Nat.div_lt_self (by omega) (by omega)
    simp only [h10, if_false]
    exact numToCharsF_acc (n / 10) n _ hdiv

/-- Digit characters are in the `\d` class. -/
theorem isPyDigit_ofNat (k : Nat) (h : k < 10) : isPyDigit (Char.ofNat (48 + k)) = true := by
  interval_cases k <;> decide

/-- Value of a digit character. -/
theorem toNat_digitChar (k : Nat) (h : k < 10) : (Char.ofNat (48 + k)).toNat = 48 + k := by
  interval_cases k <;> decide

/-- The printer produces only digit characters. -/
theorem numToChars_digits (n : Nat) : (numToChars n).all isPyDigit = true := by
  induction n using Nat.strong_induction_on with
  | _ n ih =>
    rw [numToChars_eq]
    by_cases h10 : n < 10
    · simp [h10, isPyDigit_ofNat n h10]
    · have hdiv : n / 10 < n := Nat.div_lt_self (by omega) (by omega)
      simp [h10, List.all_append, ih (n / 10) hdiv,
        isPyDigit_ofNat (n % 10) (Nat.mod_lt n (by omega))]

/-- The printer never produces the empty string. -/
theorem numToChars_ne_nil (n : Nat) : numToChars n ≠ [] := by
  rw [numToChars_eq]
  by_cases h10 : n < 10 <;> simp [h10]

/-- Appending one digit multiplies the value by ten. -/
theorem digitsVal_append_single (l : List Char) (d : Char) :
    digitsVal (l ++ [d]) = digitsVal l * 10 + (d.toNat - 48) := by
  simp [digitsVal, List.foldl_append]

/-- The printed string evaluates back to the number. -/
theorem digitsVal_numToChars (n : Nat) : digitsVal (numToChars n) = n := by
  induction n using Nat.strong_induction_on with
  | _ n ih =>
    rw [numToChars_eq]
    by_cases h10 : n < 10
    · simp [h10, digitsVal, toNat_digitChar n h10]
    · have hdiv : n / 10 < n := Nat.div_lt_self (by omega) (by omega)
      rw [if_neg h10, digitsVal_append_single, ih (n / 10) hdiv,
        toNat_digitChar (n % 10) (Nat.mod_lt n (by omega))]
      omega

/-- Digit strings contain no dot. -/
theorem digits_no_dot (x : List Char) (h : x.all isPyDigit = true) :
    ∀ c ∈ x, ¬ c = '.' := by
  intro c hc hceq
  subst hceq
  exact absurd (List.all_eq_true.mp h _ hc) (by decide)

/-- Splitting a dot-free string gives the single piece. -/
theorem splitDot_no_dot (z : List Char) (h : ∀ c ∈ z, ¬ c = '.') : splitDot z = [z] := by
  induction z with
  | nil => rfl
  | cons c cs ih =>
    have hc : (c == '.') = false := by
      simpa using h c (List.mem_cons_self c cs)
    rw [splitDot, if_neg (by simp [hc])]
    rw [ih (fun d hd => h d (List.mem_cons_of_mem c hd))]

/-- Splitting peels off a dot-free front segment. -/
theorem splitDot_append (x r : List Char) (h : ∀ c ∈ x, ¬ c = '.') :
    splitDot (x ++ '.' :: r) = x :: splitDot r := by
  induction x with
  | nil => simp [splitDot]
  | cons c cs ih =>
    have hc : (c == '.') = false := by
      simpa using h c (List.mem_cons_self c cs)
    rw [List.cons_append, splitDot, if_neg (by simp [hc]),
      ih (fun d hd => h d (List.mem_cons_of_mem c hd))]

/-- Splitting the formatted version recovers the three components. -/
theorem splitDot_fmtV (a b c : Nat) :
    splitDot (fmtV a b c) = [numToChars a, numToChars b, numToChars c] := by
  unfold fmtV
  simp only [List.cons_append, List.append_assoc]
  rw [splitDot_append _ _ (digits_no_dot _ (numToChars_digits a)),
    splitDot_append _ _ (digits_no_dot _ (numToChars_digits b)),
    splitDot_no_dot _ (digits_no_dot _ (numToChars_digits c))]

/-- Parsing a printed number succeeds with its value. -/
theorem pyInt_numToChars (n : Nat) : pyInt (numToChars n) = some n := by
  unfold pyInt
  rw [if_pos]
  · rw [digitsVal_numToChars]
  · simp [numToChars_digits n, List.isEmpty_iff, numToChars_ne_nil n]

/-- Evaluation of `increment_version` on a canonically formatted version. -/
theorem increment_version_eval (a b c : Nat) (t : List Char) :
    increment_version (fmtV a b c) t =
      if t = majorT then Except.ok (fmtV (a + 1) 0 0)
      else if t = minorT then Except.ok (fmtV a (b + 1) 0)
      else if t = patchT then Except.ok (fmtV a b (c + 1))
      else Except.error PyErr.invalidType := by
  unfold increment_version
  simp only [splitDot_fmtV, pyInt_numToChars]

/-- Claim C4: on every valid version each class maps as
major `(a,b,c) ↦ (a+1,0,0)`, minor `(a,b,c) ↦ (a,b+1,0)`,
patch `(a,b,c) ↦ (a,b,c+1)` (so patch resets to 0 for non-patch classes and
minor resets to 0 for major), and each result is lexicographically greater;
the quantification over all naturals shows no upper bound on any component. -/
theorem claim4_bump (a b c : Nat) :
    (increment_version (fmtV a b c) majorT = Except.ok (fmtV (a + 1) 0 0) ∧
      vlt (a, b, c) (a + 1, 0, 0)) ∧
    (increment_version (fmtV a b c) minorT = Except.ok (fmtV a (b + 1) 0) ∧
      vlt (a, b, c) (a, b + 1, 0)) ∧
    (increment_version (fmtV a b c) patchT = Except.ok (fmtV a b (c + 1)) ∧
      vlt (a, b, c) (a, b, c + 1)) := by
  refine ⟨⟨?_, ?_⟩, ⟨?_, ?_⟩, ⟨?_, ?_⟩⟩ <;>
    simp [increment_version_eval, vlt, majorT, minorT, patchT]

/-- A quote character is not whitespace. -/
theorem quote_not_space (c : Char) (h : isQuote c = true) : isPySpace c = false := by
  simp only [isQuote, Bool.or_eq_true, beq_iff_eq] at h
  rcases h with rfl | rfl <;> decide

/-- A quote character is not a digit. -/
theorem quote_not_digit (c : Char) (h : isQuote c = true) : isPyDigit c = false := by
  simp only [isQuote, Bool.or_eq_true, beq_iff_eq] at h
  rcases h with rfl | rfl <;> decide

/-- Whitespace is not a quote. -/
theorem space_not_quote (c : Char) (h : isPySpace c = true) : isQuote c = false := by
  simp only [isPySpace, Bool.or_eq_true, beq_iff_eq] at h
  rcases h with ((((rfl | rfl) | rfl) | rfl) | rfl) | rfl <;> decide

/-- A digit is not a quote. -/
theorem digit_not_quote (c : Char) (h : isPyDigit c = true) : isQuote c = false := by
  cases hq : isQuote c
  · rfl
  · simp only [isQuote, Bool.or_eq_true, beq_iff_eq] at hq
    rcases hq with rfl | rfl <;> exact absurd h (by decide)

/-- The head surviving a `dropWhile` fails the predicate. -/
theorem dropWhile_head_false (p : Char → Bool) :
    ∀ (l : List Char) (c : Char) (t : List Char), l.dropWhile p = c :: t → p c = false := by
  intro l
  induction l with
  | nil => intro c t h; simp [List.dropWhile] at h
  | cons a l ih =>
    intro c t h
    by_cases ha : p a
    · rw [List.dropWhile_cons_of_pos ha] at h
      exact ih c t h
    · rw [List.dropWhile_cons_of_neg ha] at h
      injection h with h1 h2
      subst h1
      exact Bool.of_not_eq_true ha

/-- takeWhile over a satisfying block stopped by a failing head. -/
theorem takeWhile_append_sat (p : Char → Bool) (x y : List Char) (c : Char)
    (hx : x.all p = true) (hc : p c = false) : (x ++ c :: y).takeWhile p = x := by
  induction x with
  | nil => simp [List.takeWhile_cons, hc]
  | cons a x ih =>
    simp only [List.all_cons, Bool.and_eq_true] at hx
    simp [List.takeWhile_cons, hx.1, ih hx.2]

/-- dropWhile over a satisfying block stopped by a failing head. -/
theorem dropWhile_append_sat (p : Char → Bool) (x y : List Char) (c : Char)
    (hx : x.all p = true) (hc : p c = false) : (x ++ c :: y).dropWhile p = c :: y := by
  induction x with
  | nil => simp [List.dropWhile_cons, hc]
  | cons a x ih =>
    simp only [List.all_cons, Bool.and_eq_true] at hx
    simp [List.dropWhile_cons, hx.1, ih hx.2]

/-- Literal consumption characterized. -/
theorem dropLit_some_iff :
    ∀ (pat l r : List Char), dropLit pat l = some r ↔ l = pat ++ r := by
  intro pat
  induction pat with
  | nil => intro l r; simp [dropLit, eq_comm]
  | cons p ps ih =>
    intro l r
    cases l with
    | nil => simp [dropLit]
    | cons c cs =>
      by_cases hpc : p = c
      · subst hpc
        simp [dropLit, ih cs r]
      · have hb : (p == c) = false := by simp [hpc]
        simp only [dropLit, hb, Bool.false_eq_true, if_false, List.cons_append]
        constructor
        · intro h; exact absurd h (by simp)
        · intro h; injection h with h1 h2; exact absurd h1.symm hpc

/-- Shape characterization of the shared pattern head
`__version__\s*=\s*["']`. -/
theorem matchHeader_some_iff (l r : List Char) :
    matchHeader l = some r ↔
      ∃ s1 s2 q, s1.all isPySpace = true ∧ s2.all isPySpace = true ∧ isQuote q = true ∧
        l = VLIT ++ (s1 ++ ('=' :: (s2 ++ q :: r))) := by
  constructor
  · intro h
    unfold matchHeader at h
    split at h
    · exact absurd h (by simp)
    next r1 hdl =>
      split at h
      · exact absurd h (by simp)
      next e r3 hdw1 =>
        split at h
        next he =>
          split at h
          · exact absurd h (by simp)
          next q r5 hdw2 =>
            split at h
            next hq =>
              injection h with h5
              subst h5
              refine ⟨r1.takeWhile isPySpace, r3.takeWhile isPySpace, q,
                List.all_takeWhile, List.all_takeWhile, hq, ?_⟩
              have e1 : l = VLIT ++ r1 := (dropLit_some_iff VLIT l r1).mp hdl
              have e2 : r1.takeWhile isPySpace ++ e :: r3 = r1 := by
                rw [← hdw1]; exact List.takeWhile_append_dropWhile isPySpace r1
              have e3 : r3.takeWhile isPySpace ++ q :: r5 = r3 := by
                rw [← hdw2]; exact List.takeWhile_append_dropWhile isPySpace r3
              have ee : e = '=' := by simpa using he
              rw [e1]
              congr 1
              symm
              rw [← ee, e3]
              exact e2
            next hq => exact absurd h (by simp)
        next he => exact absurd h (by simp)
  · rintro ⟨s1, s2, q, hs1, hs2, hq, rfl⟩
    unfold matchHeader
    have h1 : dropLit VLIT (VLIT ++ (s1 ++ ('=' :: (s2 ++ q :: r))))
        = some (s1 ++ ('=' :: (s2 ++ q :: r))) :=
      (dropLit_some_iff _ _ _).mpr rfl
    have h2 : (s1 ++ ('=' :: (s2 ++ q :: r))).dropWhile isPySpace = '=' :: (s2 ++ q :: r) :=
      dropWhile_append_sat isPySpace s1 (s2 ++ q :: r) '=' hs1 (by decide)
    have h3 : (s2 ++ q :: r).dropWhile isPySpace = q :: r :=
      dropWhile_append_sat isPySpace s2 r q hs2 (quote_not_space q hq)
    simp [h1, h2, h3, hq]

/-- Shape characterization of an anchored match of the substitution pattern
`__version__\s*=\s*["'][^"']+["']`: header, then a nonempty quote-free run,
then a closing quote, then the remainder. -/
theorem matchWriteAt_some_iff (l rest : List Char) :
    matchWriteAt l = some rest ↔
      ∃ s1 s2 q run q2, s1.all isPySpace = true ∧ s2.all isPySpace = true ∧
        isQuote q = true ∧ run ≠ [] ∧ run.all (fun c => !isQuote c) = true ∧
        isQuote q2 = true ∧
        l = VLIT ++ (s1 ++ ('=' :: (s2 ++ q :: (run ++ q2 :: rest)))) := by
  constructor
  · intro h
    unfold matchWriteAt at h
    split at h
    · exact absurd h (by simp)
    next r hmh =>
      split at h
      · exact absurd h (by simp)
      next hne =>
        split at h
        · exact absurd h (by simp)
        next q2 rest0 hdw =>
          injection h with h5
          subst h5
          obtain ⟨s1, s2, q, hs1, hs2, hq, hl⟩ := (matchHeader_some_iff l r).mp hmh
          have hq2 : isQuote q2 = true := by
            have := dropWhile_head_false (fun c => !isQuote c) r q2 rest0 hdw
            simpa using this
          have hr : r.takeWhile (fun c => !isQuote c) ++ q2 :: rest0 = r := by
            rw [← hdw]; exact List.takeWhile_append_dropWhile _ r
          refine ⟨s1, s2, q, r.takeWhile (fun c => !isQuote c), q2, hs1, hs2, hq,
            ?_, List.all_takeWhile, hq2, ?_⟩
          · intro hnil
            rw [hnil] at hne
            exact hne rfl
          · rw [hr]
            exact hl
  · rintro ⟨s1, s2, q, run, q2, hs1, hs2, hq, hrun, hall, hq2, rfl⟩
    unfold matchWriteAt
    have hh : matchHeader (VLIT ++ (s1 ++ ('=' :: (s2 ++ q :: (run ++ q2 :: rest)))))
        = some (run ++ q2 :: rest) :=
      (matchHeader_some_iff _ _).mpr ⟨s1, s2, q, hs1, hs2, hq, rfl⟩
    have htw : (run ++ q2 :: rest).takeWhile (fun c => !isQuote c) = run :=
      takeWhile_append_sat _ run rest q2 hall (by simp [hq2])
    have hdw : (run ++ q2 :: rest).dropWhile (fun c => !isQuote c) = q2 :: rest :=
      dropWhile_append_sat _ run rest q2 hall (by simp [hq2])
    have hie : run.isEmpty = false := by
      cases run with
      | nil => exact absurd rfl hrun
      | cons a as => rfl
    simp only [hh, htw, hdw, hie]
    simp

/-- Shape characterization of an anchored match of the search pattern
`__version__\s*=\s*["'](\d+\.\d+\.\d+)["']`: header, three nonempty digit
groups separated by dots, a closing quote, the remainder; the capture group is
the dotted digit text. -/
theorem matchReadAt_some_iff (l cap rest : List Char) :
    matchReadAt l = some (cap, rest) ↔
      ∃ s1 s2 q d1 d2 d3 q2, s1.all isPySpace = true ∧ s2.all isPySpace = true ∧
        isQuote q = true ∧ d1 ≠ [] ∧ d2 ≠ [] ∧ d3 ≠ [] ∧
        d1.all isPyDigit = true ∧ d2.all isPyDigit = true ∧ d3.all isPyDigit = true ∧
        isQuote q2 = true ∧ cap = d1 ++ '.' :: d2 ++ '.' :: d3 ∧
        l = VLIT ++ (s1 ++ ('=' :: (s2 ++ q ::
          (d1 ++ ('.' :: (d2 ++ ('.' :: (d3 ++ q2 :: rest)))))))) := by
  constructor
  · intro h
    unfold matchReadAt at h
    split at h
    · exact absurd h (by simp)
    next r hmh =>
      split at h
      · exact absurd h (by simp)
      next c1 r2 hdw1 =>
        split at h
        · exact absurd h (by simp)
        next hne1 =>
          split at h
          next hc1 =>
            split at h
            · exact absurd h (by simp)
            next c2 r3 hdw2 =>
              split at h
              · exact absurd h (by simp)
              next hne2 =>
                split at h
                next hc2 =>
                  split at h
                  · exact absurd h (by simp)
                  next c3 r4 hdw3 =>
                    split at h
                    · exact absurd h (by simp)
                    next hne3 =>
                      split at h
                      next hc3 =>
                        injection h with h5
                        rw [Prod.mk.injEq] at h5
                        obtain ⟨hcap, hrest⟩ := h5
                        subst hcap
                        subst hrest
                        obtain ⟨s1, s2, q, hs1, hs2, hq, hl⟩ :=
                          (matchHeader_some_iff l r).mp hmh
                        have hcd1 : c1 = '.' := by simpa using hc1
                        have hcd2 : c2 = '.' := by simpa using hc2
                        subst hcd1
                        subst hcd2
                        have hr1 : r.takeWhile isPyDigit ++ '.' :: r2 = r := by
                          rw [← hdw1]; exact List.takeWhile_append_dropWhile _ r
                        have hr2 : r2.takeWhile isPyDigit ++ '.' :: r3 = r2 := by
                          rw [← hdw2]; exact List.takeWhile_append_dropWhile _ r2
                        have hr3 : r3.takeWhile isPyDigit ++ c3 :: r4 = r3 := by
                          rw [← hdw3]; exact List.takeWhile_append_dropWhile _ r3
                        refine ⟨s1, s2, q, r.takeWhile isPyDigit, r2.takeWhile isPyDigit,
                          r3.takeWhile isPyDigit, c3, hs1, hs2, hq, ?_, ?_, ?_,
                          List.all_takeWhile, List.all_takeWhile, List.all_takeWhile,
                          hc3, rfl, ?_⟩
                        · intro hnil; rw [hnil] at hne1; exact hne1 rfl
                        · intro hnil; rw [hnil] at hne2; exact hne2 rfl
                        · intro hnil; rw [hnil] at hne3; exact hne3 rfl
                        · rw [show r3.takeWhile isPyDigit ++ c3 :: r4 = r3 from hr3,
                            show r2.takeWhile isPyDigit ++ '.' :: r3 = r2 from hr2,
                            hr1]
                          exact hl
                      next hc3 => exact absurd h (by simp)
                next hc2 => exact absurd h (by simp)
          next hc1 => exact absurd h (by simp)
  · rintro ⟨s1, s2, q, d1, d2, d3, q2, hs1, hs2, hq, hn1, hn2, hn3,
      hd1, hd2, hd3, hq2, hcap, rfl⟩
    have hh : matchHeader (VLIT ++ (s1 ++ ('=' :: (s2 ++ q ::
          (d1 ++ ('.' :: (d2 ++ ('.' :: (d3 ++ q2 :: rest)))))))))
        = some (d1 ++ ('.' :: (d2 ++ ('.' :: (d3 ++ q2 :: rest))))) :=
      (matchHeader_some_iff _ _).mpr ⟨s1, s2, q, hs1, hs2, hq, rfl⟩
    have htw1 : (d1 ++ ('.' :: (d2 ++ ('.' :: (d3 ++ q2 :: rest))))).takeWhile isPyDigit = d1 :=
      takeWhile_append_sat _ d1 _ '.' hd1 (by decide)
    have hdw1 : (d1 ++ ('.' :: (d2 ++ ('.' :: (d3 ++ q2 :: rest))))).dropWhile isPyDigit
        = '.' :: (d2 ++ ('.' :: (d3 ++ q2 :: rest))) :=
      dropWhile_append_sat _ d1 _ '.' hd1 (by decide)
    have htw2 : (d2 ++ ('.' :: (d3 ++ q2 :: rest))).takeWhile isPyDigit = d2 :=
      takeWhile_append_sat _ d2 _ '.' hd2 (by decide)
    have hdw2 : (d2 ++ ('.' :: (d3 ++ q2 :: rest))).dropWhile isPyDigit
        = '.' :: (d3 ++ q2 :: rest) :=
      dropWhile_append_sat _ d2 _ '.' hd2 (by decide)
    have htw3 : (d3 ++ q2 :: rest).takeWhile isPyDigit = d3 :=
      takeWhile_append_sat _ d3 _ q2 hd3 (quote_not_digit q2 hq2)
    have hdw3 : (d3 ++ q2 :: rest).dropWhile isPyDigit = q2 :: rest :=
      dropWhile_append_sat _ d3 _ q2 hd3 (quote_not_digit q2 hq2)
    have hie1 : d1.isEmpty = false := by
      cases d1 with
      | nil => exact absurd rfl hn1
      | cons a as => rfl
    have hie2 : d2.isEmpty = false := by
      cases d2 with
      | nil => exact absurd rfl hn2
      | cons a as => rfl
    have hie3 : d3.isEmpty = false := by
      cases d3 with
      | nil => exact absurd rfl hn3
      | cons a as => rfl
    unfold matchReadAt
    simp only [hh, htw1, hdw1, htw2, hdw2, htw3, hdw3, hie1, hie2, hie3]
    simp [hq2, hcap]

/-- Digit strings are quote free. -/
theorem digits_all_not_quote (x : List Char) (h : x.all isPyDigit = true) :
    x.all (fun c => !isQuote c) = true := by
  rw [List.all_eq_true] at h ⊢
  intro c hc
  simp [digit_not_quote c (h c hc)]

/-- Every position where the read pattern matches is a position where the
write pattern matches, with the same extent. -/
theorem matchReadAt_imp_write (l cap rest : List Char)
    (h : matchReadAt l = some (cap, rest)) : matchWriteAt l = some rest := by
  obtain ⟨s1, s2, q, d1, d2, d3, q2, hs1, hs2, hq, hn1, hn2, hn3,
    hd1, hd2, hd3, hq2, hcap, hl⟩ := (matchReadAt_some_iff l cap rest).mp h
  subst hl
  apply (matchWriteAt_some_iff _ _).mpr
  refine ⟨s1, s2, q, d1 ++ ('.' :: (d2 ++ ('.' :: d3))), q2, hs1, hs2, hq, ?_, ?_, hq2, ?_⟩
  · intro hnil
    exact hn1 (List.append_eq_nil.mp hnil).1
  · simp only [List.all_append, List.all_cons, Bool.and_eq_true]
    exact ⟨digits_all_not_quote d1 hd1, by decide,
      digits_all_not_quote d2 hd2, by decide, digits_all_not_quote d3 hd3⟩
  · simp [List.append_assoc, List.cons_append]

/-- Every successful search yields a capture of the dotted three-group shape. -/
theorem searchRead_some_shape (content cap : List Char) (h : searchRead content = some cap) :
    ∃ d1 d2 d3 : List Char, d1 ≠ [] ∧ d2 ≠ [] ∧ d3 ≠ [] ∧
      d1.all isPyDigit = true ∧ d2.all isPyDigit = true ∧ d3.all isPyDigit = true ∧
      cap = d1 ++ '.' :: d2 ++ '.' :: d3 := by
  induction content with
  | nil => exact absurd h (by simp [searchRead])
  | cons c cs ih =>
    unfold searchRead at h
    split at h
    next m hm =>
      injection h with h5
      subst h5
      obtain ⟨cap0, rest0⟩ := m
      obtain ⟨s1, s2, q, d1, d2, d3, q2, hs1, hs2, hq, hn1, hn2, hn3,
        hd1, hd2, hd3, hq2, hcap, hl⟩ := (matchReadAt_some_iff (c :: cs) cap0 rest0).mp hm
      exact ⟨d1, d2, d3, hn1, hn2, hn3, hd1, hd2, hd3, hcap⟩
    next hm => exact ih h

/-- Evaluation of `increment_version` on any dotted three-digit-group string. -/
theorem increment_version_shape_eval (d1 d2 d3 : List Char) (t : List Char)
    (hn1 : d1 ≠ []) (hn2 : d2 ≠ []) (hn3 : d3 ≠ [])
    (hd1 : d1.all isPyDigit = true) (hd2 : d2.all isPyDigit = true)
    (hd3 : d3.all isPyDigit = true) :
    increment_version (d1 ++ '.' :: d2 ++ '.' :: d3) t =
      if t = majorT then Except.ok (fmtV (digitsVal d1 + 1) 0 0)
      else if t = minorT then Except.ok (fmtV (digitsVal d1) (digitsVal d2 + 1) 0)
      else if t = patchT then Except.ok (fmtV (digitsVal d1) (digitsVal d2) (digitsVal d3 + 1))
      else Except.error PyErr.invalidType := by
  have hie1 : d1.isEmpty = false := by
    cases d1 with
    | nil => exact absurd rfl hn1
    | cons a as => rfl
  have hie2 : d2.isEmpty = false := by
    cases d2 with
    | nil => exact absurd rfl hn2
    | cons a as => rfl
  have hie3 : d3.isEmpty = false := by
    cases d3 with
    | nil => exact absurd rfl hn3
    | cons a as => rfl
  have hsplit : splitDot (d1 ++ '.' :: d2 ++ '.' :: d3) = [d1, d2, d3] := by
    have h1 : (d1 ++ '.' :: d2 ++ '.' :: d3) = d1 ++ '.' :: (d2 ++ '.' :: d3) := by
      simp [List.append_assoc, List.cons_append]
    rw [h1, splitDot_append _ _ (digits_no_dot _ hd1),
      splitDot_append _ _ (digits_no_dot _ hd2),
      splitDot_no_dot _ (digits_no_dot _ hd3)]
  unfold increment_version
  rw [hsplit]
  simp [pyInt, hie1, hie2, hie3, hd1, hd2, hd3]

/-- On a dotted three-digit-group string every valid class increments
successfully. -/
theorem increments_ok_of_shape (d1 d2 d3 : List Char)
    (hn1 : d1 ≠ []) (hn2 : d2 ≠ []) (hn3 : d3 ≠ [])
    (hd1 : d1.all isPyDigit = true) (hd2 : d2.all isPyDigit = true)
    (hd3 : d3.all isPyDigit = true) :
    (∃ v1, increment_version (d1 ++ '.' :: d2 ++ '.' :: d3) majorT = Except.ok v1) ∧
    (∃ v2, increment_version (d1 ++ '.' :: d2 ++ '.' :: d3) minorT = Except.ok v2) ∧
    (∃ v3, increment_version (d1 ++ '.' :: d2 ++ '.' :: d3) patchT = Except.ok v3) := by
  refine ⟨⟨fmtV (digitsVal d1 + 1) 0 0, ?_⟩,
    ⟨fmtV (digitsVal d1) (digitsVal d2 + 1) 0, ?_⟩,
    ⟨fmtV (digitsVal d1) (digitsVal d2) (digitsVal d3 + 1), ?_⟩⟩ <;>
    rw [increment_version_shape_eval d1 d2 d3 _ hn1 hn2 hn3 hd1 hd2 hd3] <;>
    simp [majorT, minorT, patchT]

/-- Whatever the file state, the read result has the dotted three-digit-group
shape. -/
theorem read_current_version_shape (file : Option (List Char)) :
    ∃ d1 d2 d3 : List Char, d1 ≠ [] ∧ d2 ≠ [] ∧ d3 ≠ [] ∧
      d1.all isPyDigit = true ∧ d2.all isPyDigit = true ∧ d3.all isPyDigit = true ∧
      read_current_version file = d1 ++ '.' :: d2 ++ '.' :: d3 := by
  cases file with
  | none =>
    exact ⟨['0'], ['0'], ['0'], by decide, by decide, by decide, by decide,
      by decide, by decide, by decide⟩
  | some content =>
    unfold read_current_version
    cases hs : searchRead content with
    | none =>
      simp only [hs]
      exact ⟨['0'], ['0'], ['0'], by decide, by decide, by decide, by decide,
        by decide, by decide, by decide⟩
    | some cap =>
      simp only [hs]
      obtain ⟨d1, d2, d3, hn1, hn2, hn3, hd1, hd2, hd3, hcap⟩ :=
        searchRead_some_shape content cap hs
      exact ⟨d1, d2, d3, hn1, hn2, hn3, hd1, hd2, hd3, hcap⟩

/-- On a store-read value every valid class increments successfully. -/
theorem read_increment_ok (file : Option (List Char)) (t : List Char)
    (ht : t = majorT ∨ t = minorT ∨ t = patchT) :
    ∃ v, increment_version (read_current_version file) t = Except.ok v := by
  obtain ⟨d1, d2, d3, hn1, hn2, hn3, hd1, hd2, hd3, hv⟩ := read_current_version_shape file
  rw [hv]
  obtain ⟨h1, h2, h3⟩ := increments_ok_of_shape d1 d2 d3 hn1 hn2 hn3 hd1 hd2 hd3
  rcases ht with rfl | rfl | rfl
  · exact h1
  · exact h2
  · exact h3

/-- The classifier only ever returns one of the three valid class strings. -/
theorem parse_result_valid (msg : List Char) :
    parse_commit_message_for_increment msg = majorT ∨
    parse_commit_message_for_increment msg = minorT ∨
    parse_commit_message_for_increment msg = patchT := by
  unfold parse_commit_message_for_increment
  dsimp only
  split_ifs <;> simp

/-- Claim C10: whatever the file state, `read_current_version` returns a string
of the shape digits dot digits dot digits (the default or the capture group),
so `increment_version` on a store-read value never reaches its ValueError
branches for any of the three valid classes. -/
theorem claim10_read_wellformed (file : Option (List Char)) :
    ∃ d1 d2 d3 : List Char, d1 ≠ [] ∧ d2 ≠ [] ∧ d3 ≠ [] ∧
      d1.all isPyDigit = true ∧ d2.all isPyDigit = true ∧ d3.all isPyDigit = true ∧
      read_current_version file = d1 ++ '.' :: d2 ++ '.' :: d3 ∧
      (∃ v1, increment_version (read_current_version file) majorT = Except.ok v1) ∧
      (∃ v2, increment_version (read_current_version file) minorT = Except.ok v2) ∧
      (∃ v3, increment_version (read_current_version file) patchT = Except.ok v3) := by
  obtain ⟨d1, d2, d3, hn1, hn2, hn3, hd1, hd2, hd3, hv⟩ := read_current_version_shape file
  refine ⟨d1, d2, d3, hn1, hn2, hn3, hd1, hd2, hd3, hv, ?_, ?_, ?_⟩ <;>
    rw [hv]
  · exact (increments_ok_of_shape d1 d2 d3 hn1 hn2 hn3 hd1 hd2 hd3).1
  · exact (increments_ok_of_shape d1 d2 d3 hn1 hn2 hn3 hd1 hd2 hd3).2.1
  · exact (increments_ok_of_shape d1 d2 d3 hn1 hn2 hn3 hd1 hd2 hd3).2.2

/-- Claim C3: an increment-class argument outside the three valid strings
always produces an Error result (a raised ValueError, never a silent default),
and no reachable error in `main` escapes as an uncaught exception: `main`
always returns a result. -/
theorem claim3_invalid_class_error :
    (∀ currentVersion t : List Char, t ≠ majorT → t ≠ minorT → t ≠ patchT →
      ∃ e, increment_version currentVersion t = Except.error e) ∧
    (∀ (file : Option (List Char)) (msg : List Char) (writeOk : Bool),
      main file msg writeOk ≠ none) := by
  constructor
  · intro cv t h1 h2 h3
    unfold increment_version
    split
    · split
      · rw [if_neg h1, if_neg h2, if_neg h3]
        exact ⟨_, rfl⟩
      · exact ⟨_, rfl⟩
    · exact ⟨_, rfl⟩
  · intro file msg writeOk
    obtain ⟨v, hv⟩ := read_increment_ok file
      (parse_commit_message_for_increment msg) (parse_result_valid msg)
    unfold main
    split
    · simp
    · simp only [hv]
      split <;> simp

/-- Witness for claim C3 at a concrete invalid class and a concrete run. -/
theorem claim3_witness :
    (∃ e, increment_version (("1.2.3").data) (("foo").data) = Except.error e) ∧
    main none (("msg [major]").data) true ≠ none :=
  ⟨claim3_invalid_class_error.1 (("1.2.3").data) (("foo").data)
      (by decide) (by decide) (by decide),
    claim3_invalid_class_error.2 none (("msg [major]").data) true⟩

/-- Claim C8: a missing file reads as 0.0.0 without error; an existing file in
which no line matches the version pattern (the pattern only matches integer
segments, so malformed segments mean no match) also reads as 0.0.0, the Lean
function being total in place of an exception; and the first increment from a
missing file on a message with no markers and no skip phrase produces the file
line for 0.0.1 with the success exit code. -/
theorem claim8_missing_and_malformed :
    read_current_version none = ("0.0.0").data ∧
    (∀ content : List Char, searchRead content = none →
      read_current_version (some content) = ("0.0.0").data) ∧
    (∀ msg : List Char,
      containsSub mMajor (pyLower msg) = false →
      containsSub mMinor (pyLower msg) = false →
      containsSub mPatch (pyLower msg) = false →
      containsSub phraseAutoInc (pyLower msg) = false →
      containsSub phraseChore (pyLower msg) = false →
      main none msg true = some (0, some (("__version__ = \"0.0.1\"\n").data))) := by
  refine ⟨rfl, ?_, ?_⟩
  · intro content hs
    unfold read_current_version
    simp only [hs]
    rfl
  · intro msg h1 h2 h3 h4 h5
    have hsk : should_skip_version_update msg = false := by
      unfold should_skip_version_update
      simp [h1, h2, h3, h4, h5]
    have hp : parse_commit_message_for_increment msg = patchT := by
      unfold parse_commit_message_for_increment
      simp [h1, h2, h3]
    simp only [main, hsk, Bool.false_eq_true, if_false, hp]
    decide

/-- Witness for claim C8 at concrete inputs. -/
theorem claim8_witness :
    read_current_version none = ("0.0.0").data ∧
    read_current_version (some (("version = nothing").data)) = ("0.0.0").data ∧
    main none (("add feature").data) true
      = some (0, some (("__version__ = \"0.0.1\"\n").data)) :=
  ⟨claim8_missing_and_malformed.1,
    claim8_missing_and_malformed.2.1 (("version = nothing").data) (by decide),
    claim8_missing_and_malformed.2.2 (("add feature").data)
      (by decide) (by decide) (by decide) (by decide) (by decide)⟩

/-- Splitting a dotted three-group string of digits yields the groups. -/
theorem splitDot_groups (d1 d2 d3 : List Char)
    (hd1 : d1.all isPyDigit = true) (hd2 : d2.all isPyDigit = true)
    (hd3 : d3.all isPyDigit = true) :
    splitDot (d1 ++ '.' :: d2 ++ '.' :: d3) = [d1, d2, d3] := by
  have h1 : (d1 ++ '.' :: d2 ++ '.' :: d3) = d1 ++ '.' :: (d2 ++ '.' :: d3) := by
    simp [List.append_assoc, List.cons_append]
  rw [h1, splitDot_append _ _ (digits_no_dot _ hd1),
    splitDot_append _ _ (digits_no_dot _ hd2),
    splitDot_no_dot _ (digits_no_dot _ hd3)]

/-- A successful increment of a store-read version always changes the version
string: the unchanged branch after a successful write is unreachable. -/
theorem bump_changes (file : Option (List Char)) (t : List Char)
    (ht : t = majorT ∨ t = minorT ∨ t = patchT) (nv : List Char)
    (hinc : increment_version (read_current_version file) t = Except.ok nv) :
    read_current_version file ≠ nv := by
  obtain ⟨d1, d2, d3, hn1, hn2, hn3, hd1, hd2, hd3, hv⟩ := read_current_version_shape file
  rw [hv] at hinc ⊢
  rw [increment_version_shape_eval d1 d2 d3 t hn1 hn2 hn3 hd1 hd2 hd3] at hinc
  intro heq
  rcases ht with rfl | rfl | rfl
  · rw [if_pos rfl] at hinc
    injection hinc with h5
    subst h5
    have hsp := congrArg splitDot heq
    rw [splitDot_groups d1 d2 d3 hd1 hd2 hd3, splitDot_fmtV] at hsp
    injection hsp with e1 hsp2
    have := congrArg digitsVal e1
    rw [digitsVal_numToChars] at this
    omega
  · rw [if_neg (by decide), if_pos rfl] at hinc
    injection hinc with h5
    subst h5
    have hsp := congrArg splitDot heq
    rw [splitDot_groups d1 d2 d3 hd1 hd2 hd3, splitDot_fmtV] at hsp
    injection hsp with e1 hsp2
    injection hsp2 with e2 hsp3
    have := congrArg digitsVal e2
    rw [digitsVal_numToChars] at this
    omega
  · rw [if_neg (by decide), if_neg (by decide), if_pos rfl] at hinc
    injection hinc with h5
    subst h5
    have hsp := congrArg splitDot heq
    rw [splitDot_groups d1 d2 d3 hd1 hd2 hd3, splitDot_fmtV] at hsp
    injection hsp with e1 hsp2
    injection hsp2 with e2 hsp3
    injection hsp3 with e3 hsp4
    have := congrArg digitsVal e3
    rw [digitsVal_numToChars] at this
    omega

/-- Counterexample for claim C2: a loop-guard skip run leaves the version
unchanged yet exits with code 0, the very code of a successful changed run, so
the unchanged outcome is not mapped to a distinguished non-zero exit code. -/
theorem claim2_counterexample :
    main (some (("__version__ = \"1.0.0\"\n").data))
        (("chore: auto-increment version").data) true
      = some (0, some (("__version__ = \"1.0.0\"\n").data)) ∧
    main (some (("__version__ = \"1.0.0\"\n").data)) (("improve docs").data) true
      = some (0, some (("__version__ = \"1.0.1\"\n").data)) := by
  constructor <;> decide

/-- Claim C2 as amended: the script realizes only a two-way exit distinction: a
loop-guard skip exits 0 (the success code, leaving the file untouched), a
successful write exits 0 (the version always changes, so the exit-1 unchanged
branch after a write is unreachable), and a failed write exits 1. -/
theorem claim2_amended_exit_codes (file : Option (List Char)) (msg : List Char) :
    (should_skip_version_update msg = true →
      main file msg true = some (0, file) ∧ main file msg false = some (0, file)) ∧
    (should_skip_version_update msg = false →
      ∃ nv, increment_version (read_current_version file)
          (parse_commit_message_for_increment msg) = Except.ok nv ∧
        main file msg true = some (0, some (update_version_file file nv)) ∧
        main file msg false = some (1, file)) := by
  constructor
  · intro hsk
    constructor <;> simp [main, hsk]
  · intro hsk
    obtain ⟨nv, hnv⟩ := read_increment_ok file
      (parse_commit_message_for_increment msg) (parse_result_valid msg)
    have hne := bump_changes file _ (parse_result_valid msg) nv hnv
    refine ⟨nv, hnv, ?_, ?_⟩
    · simp only [main, hsk, Bool.false_eq_true, if_false, hnv]
      simp [hne]
    · simp [main, hsk, hnv]

/-- Witness for the amended claim C2 at concrete runs. -/
theorem claim2_witness :
    (main (some (("__version__ = \"2.0.0\"\n").data))
        (("chore: auto-increment version!").data) true
      = some (0, some (("__version__ = \"2.0.0\"\n").data))) ∧
    ∃ nv, increment_version
        (read_current_version (some (("__version__ = \"2.0.0\"\n").data)))
        (parse_commit_message_for_increment (("tweak").data)) = Except.ok nv ∧
      main (some (("__version__ = \"2.0.0\"\n").data)) (("tweak").data) true
        = some (0, some (update_version_file
            (some (("__version__ = \"2.0.0\"\n").data)) nv)) ∧
      main (some (("__version__ = \"2.0.0\"\n").data)) (("tweak").data) false
        = some (1, some (("__version__ = \"2.0.0\"\n").data)) :=
  ⟨((claim2_amended_exit_codes _ _).1 (by decide)).1,
    (claim2_amended_exit_codes _ _).2 (by decide)⟩

/-- A write-pattern match consumes at least one character. -/
theorem matchWriteAt_length (l rest : List Char) (h : matchWriteAt l = some rest) :
    rest.length < l.length := by
  obtain ⟨s1, s2, q, run, q2, _, _, _, _, _, _, hl⟩ := (matchWriteAt_some_iff l rest).mp h
  subst hl
  simp [List.length_append, VLIT]
  omega

/-- Unfolding of the fuelled substitution at positive fuel. -/
theorem subAllF_succ (v : List Char) (f : Nat) (c : Char) (cs : List Char) :
    subAllF v (f + 1) (c :: cs) =
      match matchWriteAt (c :: cs) with
      | some rest => repl v ++ subAllF v f rest
      | none => c :: subAllF v f cs := rfl

/-- Any sufficient fuel computes the same substitution. -/
theorem subAllF_congr :
    ∀ (f1 : Nat) (v l : List Char) (f2 : Nat), l.length ≤ f1 → l.length ≤ f2 →
      subAllF v f1 l = subAllF v f2 l := by
  intro f1
  induction f1 with
  | zero =>
    intro v l f2 h1 h2
    have hl : l = [] := List.eq_nil_of_length_eq_zero (by omega)
    subst hl
    cases f2 <;> rfl
  | succ g ih =>
    intro v l f2 h1 h2
    cases l with
    | nil => cases f2 <;> rfl
    | cons c cs =>
      obtain ⟨g2, rfl⟩ : ∃ g2, f2 = g2 + 1 := ⟨f2 - 1, by simp at h2; omega⟩
      rw [subAllF_succ, subAllF_succ]
      cases hm : matchWriteAt (c :: cs) with
      | none =>
        simp only [hm]
        have hcs : cs.length ≤ g := by simp at h1; omega
        have hcs2 : cs.length ≤ g2 := by simp at h2; omega
        rw [ih v cs g2 hcs hcs2]
      | some rest =>
        simp only [hm]
        have hr := matchWriteAt_length _ _ hm
        have hr1 : rest.length ≤ g := by simp at h1 hr; omega
        have hr2 : rest.length ≤ g2 := by simp at h2 hr; omega
        rw [ih v rest g2 hr1 hr2]

/-- Substitution on the empty string. -/
theorem subAll_nil (v : List Char) : subAll v [] = [] := rfl

/-- Substitution when the write pattern matches at the head: replace and
continue after the match. -/
theorem subAll_cons_some (v : List Char) (c : Char) (cs rest : List Char)
    (h : matchWriteAt (c :: cs) = some rest) :
    subAll v (c :: cs) = repl v ++ subAll v rest := by
  unfold subAll
  have : (c :: cs).length = cs.length + 1 := rfl
  rw [this, subAllF_succ]
  simp only [h]
  have hr := matchWriteAt_length _ _ h
  rw [subAllF_congr cs.length v rest rest.length (by simp at hr; omega) (le_refl _)]

/-- Substitution when the write pattern does not match at the head: keep the
character and continue one position later. -/
theorem subAll_cons_none (v : List Char) (c : Char) (cs : List Char)
    (h : matchWriteAt (c :: cs) = none) :
    subAll v (c :: cs) = c :: subAll v cs := by
  unfold subAll
  have : (c :: cs).length = cs.length + 1 := rfl
  rw [this, subAllF_succ]
  simp only [h]

/-- The substitution satisfies its relational specification: every leftmost
non-overlapping match is replaced by the canonical text and every other
character is kept verbatim. -/
theorem subAll_spec (v l : List Char) : SubSpec v l (subAll v l) := by
  have H : ∀ (n : Nat) (l : List Char), l.length ≤ n → SubSpec v l (subAll v l) := by
    intro n
    induction n with
    | zero =>
      intro l hl
      have : l = [] := List.eq_nil_of_length_eq_zero (by omega)
      subst this
      rw [subAll_nil]
      exact SubSpec.nil
    | succ n ih =>
      intro l hl
      cases l with
      | nil => rw [subAll_nil]; exact SubSpec.nil
      | cons c cs =>
        cases hm : matchWriteAt (c :: cs) with
        | none =>
          rw [subAll_cons_none v c cs hm]
          exact SubSpec.keep c cs _ hm (ih cs (by simp at hl; omega))
        | some rest =>
          rw [subAll_cons_some v c cs rest hm]
          obtain ⟨s1, s2, q, run, q2, hs1, hs2, hq, hrun, hall, hq2, hl2⟩ :=
            (matchWriteAt_some_iff _ _).mp hm
          have hdecomp : c :: cs
              = (VLIT ++ (s1 ++ ('=' :: (s2 ++ q :: (run ++ [q2]))))) ++ rest := by
            rw [hl2]; simp [List.append_assoc, List.cons_append]
          rw [hdecomp]
          refine SubSpec.subst _ rest _ ?_ ?_ (ih rest ?_)
          · rw [← hdecomp]; exact hm
          · intro hnil
            rw [List.append_eq_nil] at hnil
            exact absurd hnil.1 (by decide)
          · have := matchWriteAt_length _ _ hm
            simp at hl this
            omega
  exact H l.length l (le_refl _)

/-- Counterexample for claim C1: a file whose content has no version-assignment
line is entirely replaced by the single assignment line; the prior content is
not kept, so `write` does not append while preserving existing content. -/
theorem claim1_counterexample :
    update_version_file (some (("x = 1\n").data)) (("2.0.0").data)
      = ("__version__ = \"2.0.0\"\n").data ∧
    containsSub (("x = 1\n").data)
      (update_version_file (some (("x = 1\n").data)) (("2.0.0").data)) = false := by
  constructor <;> decide

/-- Claim C1 as amended: when the substitution changes the content, the write
stores exactly the substituted content, in which every write-pattern match is
replaced by the canonical assignment text and all other bytes are preserved
verbatim (the `SubSpec` relation); when the substitution changes nothing — in
particular when no assignment line is present — the whole content is replaced
by a single canonical assignment line instead of appending to it. -/
theorem claim1_write_frame (content v : List Char) :
    SubSpec v content (subAll v content) ∧
    (subAll v content ≠ content → update_version_file (some content) v = subAll v content) ∧
    (subAll v content = content → update_version_file (some content) v = canonLine v) := by
  refine ⟨subAll_spec v content, fun h => ?_, fun h => ?_⟩ <;>
    simp [update_version_file, h]

/-- Witness for the amended claim C1 at a file with surrounding content. -/
theorem claim1_witness :
    SubSpec (("9.9.9").data) (("a\n__version__ = \"1.2.3\"\nb\n").data)
      (subAll (("9.9.9").data) (("a\n__version__ = \"1.2.3\"\nb\n").data)) ∧
    update_version_file (some (("a\n__version__ = \"1.2.3\"\nb\n").data)) (("9.9.9").data)
      = subAll (("9.9.9").data) (("a\n__version__ = \"1.2.3\"\nb\n").data) :=
  ⟨(claim1_write_frame _ _).1, (claim1_write_frame _ _).2.1 (by decide)⟩

/-- Characters of the literal `__version__` are neither whitespace nor the
equals sign nor quotes. -/
theorem vlit_char_props : ∀ c ∈ VLIT, isPySpace c = false ∧ c ≠ '=' ∧ isQuote c = false := by
  decide

/-- Whitespace runs are quote free. -/
theorem spaces_all_not_quote (s : List Char) (h : s.all isPySpace = true) :
    s.all (fun c => !isQuote c) = true := by
  rw [List.all_eq_true] at h ⊢
  intro c hc
  simp [space_not_quote c (h c hc)]

/-- The replacement text followed by anything, written out character by
character. -/
theorem repl_append_eq (v t : List Char) :
    repl v ++ t = '_' :: '_' :: 'v' :: 'e' :: 'r' :: 's' :: 'i' :: 'o' :: 'n' :: '_' :: '_' ::
      ' ' :: '=' :: ' ' :: '"' :: (v ++ '"' :: t) := by
  simp [repl, VLIT, List.cons_append, List.append_assoc]

/-- The replacement text followed by anything, with the leading literal kept
folded. -/
theorem repl_append_eq2 (v t : List Char) :
    repl v ++ t = VLIT ++ (' ' :: '=' :: ' ' :: '"' :: (v ++ '"' :: t)) := by
  simp [repl, List.cons_append, List.append_assoc]

/-- Lifting a write-pattern match across the substitution: if the write
pattern matches at the head of `x ++ subAll v y`, it already matched at the
head of `x ++ y`. The interesting case is a match that starts inside `x` and
crosses into a replacement block: its quote-free run can absorb the literal
and equals sign of the replacement, but then the original text carried a match
at the same position, built from the pending partial header of `x` and the
original match that produced the replacement. -/
theorem matchWrite_subAll_lift (v : List Char) :
    ∀ (n : Nat) (y : List Char), y.length ≤ n → ∀ (x r1 : List Char),
      matchWriteAt (x ++ subAll v y) = some r1 →
      ∃ r2, matchWriteAt (x ++ y) = some r2 := by
  intro n
  induction n with
  | zero =>
    intro y hy x r1 h
    have hnil : y = [] := List.eq_nil_of_length_eq_zero (by omega)
    subst hnil
    exact ⟨r1, h⟩
  | succ n ih =>
    intro y hy x r1 h
    cases y with
    | nil => exact ⟨r1, h⟩
    | cons d ds =>
      cases hm : matchWriteAt (d :: ds) with
      | none =>
        rw [subAll_cons_none v d ds hm] at h
        have h' : matchWriteAt ((x ++ [d]) ++ subAll v ds) = some r1 := by
          rw [show (x ++ [d]) ++ subAll v ds = x ++ d :: subAll v ds by simp]
          exact h
        obtain ⟨r2, h2⟩ := ih ds (by simp at hy; omega) (x ++ [d]) r1 h'
        refine ⟨r2, ?_⟩
        rw [show x ++ d :: ds = (x ++ [d]) ++ ds by simp]
        exact h2
      | some rest =>
        rw [subAll_cons_some v d ds rest hm] at h
        cases x with
        | nil =>
          refine ⟨rest, ?_⟩
          simpa using hm
        | cons e x0 =>
          obtain ⟨s1, s2, q, run, q2, hs1, hs2, hq, hrun, hall, hq2, hl⟩ :=
            (matchWriteAt_some_iff _ _).mp h
          have hl' : (e :: x0) ++ (repl v ++ subAll v rest)
              = (VLIT ++ (s1 ++ ('=' :: (s2 ++ q :: (run ++ [q2]))))) ++ r1 := by
            rw [hl]; simp [List.append_assoc, List.cons_append]
          rcases List.append_eq_append_iff.mp hl' with ⟨a, hMa, hBa⟩ | ⟨cL, hXc, hrc⟩
          · -- the match prefix extends at least to the end of x
            cases a with
            | nil =>
              rw [List.append_nil] at hMa
              refine ⟨d :: ds, (matchWriteAt_some_iff _ _).mpr
                ⟨s1, s2, q, run, q2, hs1, hs2, hq, hrun, hall, hq2, ?_⟩⟩
              rw [← hMa]
              simp [List.append_assoc, List.cons_append]
            | cons a0 as =>
              have hBa' : repl v ++ subAll v rest = (a0 :: as) ++ r1 := hBa
              rw [repl_append_eq, List.cons_append] at hBa'
              have ha0 : a0 = '_' := by
                injection hBa' with h1 h2
                exact h1.symm
              subst ha0
              rcases List.append_eq_append_iff.mp hMa with ⟨w, hXw, hR1w⟩ | ⟨w, hVw, haw⟩
              · -- the match header extends beyond the literal into x's tail
                rcases List.append_eq_append_iff.mp hR1w with ⟨u, hwu, hru⟩ | ⟨u, hs1u, hau⟩
                · -- boundary beyond s1
                  cases u with
                  | nil =>
                    rw [List.append_nil] at hwu
                    rw [List.nil_append] at hru
                    injection hru with h1 h2
                    exact absurd h1 (by decide)
                  | cons u0 us =>
                    rw [List.cons_append] at hru
                    injection hru with h1 hru2
                    subst h1
                    rcases List.append_eq_append_iff.mp hru2 with ⟨z, husz, hrz⟩ | ⟨z, hs2z, haz⟩
                    · -- boundary beyond s2
                      cases z with
                      | nil =>
                        rw [List.append_nil] at husz
                        rw [List.nil_append] at hrz
                        injection hrz with h1 h2
                        subst h1
                        exact absurd hq (by decide)
                      | cons z0 zs =>
                        rw [List.cons_append] at hrz
                        injection hrz with h1 hrz2
                        subst h1
                        rcases List.append_eq_append_iff.mp hrz2 with
                          ⟨m2, hzsm, hqm⟩ | ⟨m2, hrunm, ham⟩
                        · -- the closing quote would have to be the underscore
                          cases m2 with
                          | nil =>
                            rw [List.nil_append] at hqm
                            injection hqm with h1 h2
                            subst h1
                            exact absurd hq2 (by decide)
                          | cons m0 ms =>
                            rw [List.cons_append] at hqm
                            injection hqm with h1 h2
                            rcases List.append_eq_nil.mp h2.symm with ⟨h3, h4⟩
                            exact absurd h4 (by simp)
                        · -- the run crosses into the replacement: rebuild the
                          -- match from x's pending header and y's own match
                          obtain ⟨σ1, σ2, ρ, run2, ρ2, hσ1, hσ2, hρ, hrun2, hall2, hρ2, hy2⟩ :=
                            (matchWriteAt_some_iff _ _).mp hm
                          have hXeq : (e :: x0)
                              = VLIT ++ (s1 ++ ('=' :: (s2 ++ q :: zs))) := by
                            rw [hXw, hwu, husz]
                          have hzq : zs.all (fun c => !isQuote c) = true := by
                            have : run.all (fun c => !isQuote c) = true := hall
                            rw [hrunm, List.all_append, Bool.and_eq_true] at this
                            exact this.1
                          refine ⟨run2 ++ ρ2 :: rest, (matchWriteAt_some_iff _ _).mpr
                            ⟨s1, s2, q, zs ++ (VLIT ++ (σ1 ++ ('=' :: σ2))), ρ,
                              hs1, hs2, hq, ?_, ?_, hρ, ?_⟩⟩
                          · intro hnil
                            rw [List.append_eq_nil, List.append_eq_nil] at hnil
                            exact absurd hnil.2.1 (by decide)
                          · simp only [List.all_append, List.all_cons, Bool.and_eq_true]
                            refine ⟨hzq, by decide, spaces_all_not_quote σ1 hσ1, by decide,
                              spaces_all_not_quote σ2 hσ2⟩
                          · rw [hXeq, hy2]
                            simp [List.append_assoc, List.cons_append]
                    · -- boundary inside s2 or at the opening quote: the next
                      -- replacement character is an underscore, which is
                      -- neither whitespace nor a quote
                      cases z with
                      | nil =>
                        rw [List.nil_append] at haz
                        injection haz with h1 h2
                        rw [← h1] at hq
                        exact absurd hq (by decide)
                      | cons z0 zzs =>
                        rw [List.cons_append] at haz
                        injection haz with h1 h2
                        have hz0 : z0 ∈ s2 := by
                          rw [hs2z]
                          exact List.mem_append_right us (List.mem_cons_self z0 zzs)
                        have := List.all_eq_true.mp hs2 z0 hz0
                        rw [← h1] at this
                        exact absurd this (by decide)
                · -- the match header would need whitespace or the equals sign
                  -- where the replacement starts with an underscore
                  cases u with
                  | nil =>
                    rw [List.append_nil] at hs1u
                    rw [List.nil_append] at hau
                    injection hau with h1 h2
                    exact absurd h1.symm (by decide)
                  | cons u0 us =>
                    rw [List.cons_append] at hau
                    injection hau with h1 h2
                    have hu0 : u0 ∈ s1 := by
                      rw [hs1u]
                      exact List.mem_append_right w (List.mem_cons_self u0 us)
                    have := List.all_eq_true.mp hs1 u0 hu0
                    rw [← h1] at this
                    exact absurd this (by decide)
              · -- x ends inside the literal: the character after the shared
                -- suffix would have to be whitespace or the equals sign, but
                -- it is a literal character
                have hlen : w.length + (e :: x0).length = VLIT.length := by
                  rw [hVw]; simp [List.length_append]; omega
                rcases List.append_eq_append_iff.mp
                    (show w ++ ((s1 ++ ('=' :: (s2 ++ q :: (run ++ [q2])))) ++ r1)
                        = VLIT ++ (' ' :: '=' :: ' ' :: '"' :: (v ++ '"' :: subAll v rest))
                      from by
                        rw [← List.append_assoc, ← haw, ← repl_append_eq2]
                        exact hBa.symm) with ⟨u, hVu, hRu⟩ | ⟨u, hwu, h8u⟩
                · cases u with
                  | nil =>
                    rw [List.append_nil] at hVu
                    have : (e :: x0).length = 0 := by
                      have := congrArg List.length hVu
                      simp at this
                      omega
                    simp at this
                  | cons u0 us =>
                    have hu0 : u0 ∈ VLIT := by
                      rw [hVu]
                      exact List.mem_append_right w (List.mem_cons_self u0 us)
                    rw [List.cons_append] at hRu
                    obtain ⟨hsp, hne, hnq⟩ := vlit_char_props u0 hu0
                    cases s1 with
                    | nil =>
                      rw [List.nil_append, List.cons_append] at hRu
                      injection hRu with h1 h2
                      exact absurd h1.symm hne
                    | cons c1 s1' =>
                      rw [List.cons_append, List.cons_append] at hRu
                      injection hRu with h1 h2
                      have := List.all_eq_true.mp hs1 c1 (List.mem_cons_self c1 s1')
                      rw [h1] at this
                      rw [this] at hsp
                      exact absurd hsp (by decide)
                · have := congrArg List.length hwu
                  have hlv : VLIT.length = 11 := by decide
                  simp [List.length_append] at this hlen
                  omega
          · -- the whole match lies inside x
            refine ⟨cL ++ (d :: ds), (matchWriteAt_some_iff _ _).mpr
              ⟨s1, s2, q, run, q2, hs1, hs2, hq, hrun, hall, hq2, ?_⟩⟩
            rw [hXc]
            simp [List.append_assoc, List.cons_append]

/-- If the write pattern does not match at a position of the original text, the
read pattern does not match at that position of the substituted text. -/
theorem matchReadAt_subAll_none (v : List Char) (c : Char) (cs : List Char)
    (h : matchWriteAt (c :: cs) = none) :
    matchReadAt (c :: subAll v cs) = none := by
  cases hr : matchReadAt (c :: subAll v cs) with
  | none => rfl
  | some m =>
    obtain ⟨cap0, rest0⟩ := m
    have hw := matchReadAt_imp_write _ _ _ hr
    have h2 : matchWriteAt ([c] ++ subAll v cs) = some rest0 := by simpa using hw
    obtain ⟨r2, hr2⟩ := matchWrite_subAll_lift v cs.length cs (le_refl _) [c] rest0 h2
    rw [show [c] ++ cs = c :: cs by simp, h] at hr2
    exact absurd hr2 (by simp)

/-- Unfolding of the search scan at a cons cell. -/
theorem searchRead_cons (c : Char) (cs : List Char) :
    searchRead (c :: cs) =
      match matchReadAt (c :: cs) with
      | some m => some m.1
      | none => searchRead cs := rfl

/-- A head match settles the search. -/
theorem searchRead_head_some (l cap rest : List Char) (hne : l ≠ [])
    (h : matchReadAt l = some (cap, rest)) : searchRead l = some cap := by
  cases l with
  | nil => exact absurd rfl hne
  | cons c cs =>
    rw [searchRead_cons]
    simp [h]

/-- The read pattern matches at the head of the replacement text for any
canonically formatted version, capturing exactly that version. -/
theorem matchReadAt_repl (a b c : Nat) (t : List Char) :
    matchReadAt (repl (fmtV a b c) ++ t) = some (fmtV a b c, t) := by
  apply (matchReadAt_some_iff _ _ _).mpr
  refine ⟨[' '], [' '], '"', numToChars a, numToChars b, numToChars c, '"',
    by decide, by decide, by decide, numToChars_ne_nil a, numToChars_ne_nil b,
    numToChars_ne_nil c, numToChars_digits a, numToChars_digits b,
    numToChars_digits c, by decide, rfl, ?_⟩
  unfold repl fmtV
  simp [List.append_assoc, List.cons_append]

/-- The replacement text is nonempty. -/
theorem repl_append_ne_nil (v t : List Char) : repl v ++ t ≠ [] := by
  rw [repl_append_eq]
  simp

/-- Search after substitution: either the substitution changed nothing, or the
search over the substituted text finds exactly the substituted version. -/
theorem searchRead_subAll (a b c : Nat) :
    ∀ (n : Nat) (l : List Char), l.length ≤ n →
      subAll (fmtV a b c) l = l ∨
        searchRead (subAll (fmtV a b c) l) = some (fmtV a b c) := by
  intro n
  induction n with
  | zero =>
    intro l hl
    have : l = [] := List.eq_nil_of_length_eq_zero (by omega)
    subst this
    exact Or.inl rfl
  | succ n ih =>
    intro l hl
    cases l with
    | nil => exact Or.inl rfl
    | cons c0 cs =>
      cases hm : matchWriteAt (c0 :: cs) with
      | some rest =>
        right
        rw [subAll_cons_some _ _ _ _ hm]
        exact searchRead_head_some _ _ _ (repl_append_ne_nil _ _)
          (matchReadAt_repl a b c (subAll (fmtV a b c) rest))
      | none =>
        rw [subAll_cons_none _ _ _ hm]
        rcases ih cs (by simp at hl; omega) with hsame | hfound
        · left
          rw [hsame]
        · right
          have hnone := matchReadAt_subAll_none (fmtV a b c) c0 cs hm
          rw [searchRead_cons]
          simp only [hnone]
          exact hfound

/-- Claim C7 as amended (round-trip half, which holds for every initial
state): writing a canonically formatted version and reading the file back
yields exactly that version, whatever the file contained before — the
substituted text always carries the new version as its first read match, and
the no-op and missing-file branches write the canonical line alone. Byte
preservation of surrounding content holds only in the substitution branch
(claim C1); content without an assignment line is discarded, see the
counterexample. -/
theorem claim7_write_read_roundtrip (a b c : Nat) (file : Option (List Char)) :
    read_current_version (some (update_version_file file (fmtV a b c))) = fmtV a b c := by
  have hcanon : searchRead (canonLine (fmtV a b c)) = some (fmtV a b c) :=
    searchRead_head_some _ _ _ (repl_append_ne_nil _ _)
      (matchReadAt_repl a b c [Char.ofNat 10])
  cases file with
  | none =>
    show read_current_version (some (canonLine (fmtV a b c))) = fmtV a b c
    unfold read_current_version
    simp only [hcanon]
  | some content =>
    unfold update_version_file
    dsimp only
    by_cases hc : subAll (fmtV a b c) content = content
    · rw [if_pos hc]
      unfold read_current_version
      simp only [hcanon]
    · rw [if_neg hc]
      rcases searchRead_subAll a b c content.length content (le_refl _) with h | h
      · exact absurd h hc
      · unfold read_current_version
        simp only [h]

/-- Counterexample for claim C7: with initial content lacking an assignment
line, the write replaces the whole file with the single assignment line, so
the surrounding content is not byte-identical afterward; the read-back half
still yields the written version. -/
theorem claim7_counterexample :
    update_version_file (some (("hello\n").data)) (("1.2.3").data)
      = ("__version__ = \"1.2.3\"\n").data ∧
    containsSub (("hello").data)
      (update_version_file (some (("hello\n").data)) (("1.2.3").data)) = false := by
  constructor <;> decide

/-- The substitution of a nonempty string is nonempty. -/
theorem subAll_cons_ne_nil (v : List Char) (c : Char) (cs : List Char) :
    subAll v (c :: cs) ≠ [] := by
  cases hm : matchWriteAt (c :: cs) with
  | some rest =>
    rw [subAll_cons_some _ _ _ _ hm]
    exact repl_append_ne_nil _ _
  | none =>
    rw [subAll_cons_none _ _ _ hm]
    simp

/-- The written file content is never empty. -/
theorem update_version_file_ne_nil (file : Option (List Char)) (v : List Char) :
    update_version_file file v ≠ [] := by
  have hcanon : canonLine v ≠ [] := by
    unfold canonLine
    simp
  cases file with
  | none => exact hcanon
  | some content =>
    unfold update_version_file
    dsimp only
    split_ifs with hc
    · exact hcanon
    · cases content with
      | nil => exact absurd (subAll_nil v) hc
      | cons c cs => exact subAll_cons_ne_nil v c cs

/-- Counterexample for claim C9: between the truncating open and the write the
file is observably empty, a state that is neither the prior content nor the
new content, so an interruption there violates the claimed atomicity. -/
theorem claim9_counterexample :
    some ([] : List Char) ∈ update_write_states
      (some (("__version__ = \"1.2.3\"\n").data)) (("1.2.4").data) ∧
    some ([] : List Char) ≠ some (("__version__ = \"1.2.3\"\n").data) ∧
    some ([] : List Char) ≠ some (update_version_file
      (some (("__version__ = \"1.2.3\"\n").data)) (("1.2.4").data)) := by
  refine ⟨?_, ?_, ?_⟩ <;> decide

/-- Claim C9 as amended: the write is an in-place truncate-then-write, not an
atomic replacement: whenever the file was not already empty, the write
sequence passes through an intermediate state (the empty file) that is
neither the prior state nor the final state. -/
theorem claim9_inplace_write (file : Option (List Char)) (v : List Char)
    (hfile : file ≠ some []) :
    ∃ s ∈ update_write_states file v,
      s ≠ file ∧ s ≠ some (update_version_file file v) := by
  refine ⟨some [], by simp [update_write_states], fun h => hfile h.symm, fun h => ?_⟩
  injection h with h2
  exact update_version_file_ne_nil file v h2.symm

/-- Witness for the amended claim C9 at a concrete file. -/
theorem claim9_witness :
    ∃ s ∈ update_write_states (some (("__version__ = \"3.0.0\"\n").data)) (("3.0.1").data),
      s ≠ some (("__version__ = \"3.0.0\"\n").data) ∧
      s ≠ some (update_version_file
        (some (("__version__ = \"3.0.0\"\n").data)) (("3.0.1").data)) :=
  claim9_inplace_write _ _ (by decide)

end VersionManager
